import Mathlib

/-
Verification of the DLLM_Bot_1 parameter-management subsystem.

Shallow embedding conventions:
- JavaScript strings that carry binary data (plaintexts, keys, buffers) are
  modelled by their UTF-8 byte sequences as `List Nat` (each element < 256).
- Ciphertext strings (the colon-joined base64 text produced by encryptSecret)
  are modelled as `List Char`.
- JavaScript numbers are modelled as `Int` (the claims under scrutiny only
  exercise integer values).
- Node's AES-256-GCM core (createCipheriv / createDecipheriv) is external
  library code, not part of this repository; it is abstracted as an `AEAD`
  structure whose fields carry the documented contract of an authenticated
  cipher (deterministic keystream given key and nonce, length-preserving,
  16-byte tag, decryption succeeds exactly when the tag verifies).  The
  wrapper logic around it (padding, base64, colon format, error handling)
  is translated from src/utils/secrets.ts.
- File-system reads are modelled by explicit disk-state inductives; the
  mutable interactive session is modelled by explicit state passing.
-/

/-! ### Bytes and base64 -/

abbrev Bytes := List Nat

def bytesOk (b : Bytes) : Bool := b.all (fun x => x < 256)

def b64chars : List Char :=
  ['A','B','C','D','E','F','G','H','I','J','K','L','M','N','O','P','Q','R','S','T','U','V','W','X','Y','Z',
   'a','b','c','d','e','f','g','h','i','j','k','l','m','n','o','p','q','r','s','t','u','v','w','x','y','z',
   '0','1','2','3','4','5','6','7','8','9','+','/']

def b64chr (n : Nat) : Char := b64chars.getD n '?'

def b64idxAux : List Char → Char → Nat → Option Nat
  | [], _, _ => none
  | a :: rest, c, i => if a = c then some i else b64idxAux rest c (i + 1)

def b64idx (c : Char) : Option Nat := b64idxAux b64chars c 0

/-- Standard base64 encoding with '=' padding, as produced by
Node's Buffer.toString with the base64 encoding. -/
def b64encode : Bytes → List Char
  | [] => []
  | [a] => [b64chr (a / 4), b64chr (a % 4 * 16), '=', '=']
  | [a, b] => [b64chr (a / 4), b64chr (a % 4 * 16 + b / 16), b64chr (b % 16 * 4), '=']
  | a :: b :: c :: rest =>
      b64chr (a / 4) :: b64chr (a % 4 * 16 + b / 16) :: b64chr (b % 16 * 4 + c / 64) ::
        b64chr (c % 64) :: b64encode rest

/-- Base64 decoding, inverse of `b64encode` on well-formed input (models
Buffer.from with the base64 encoding on the well-formed base64 strings the
claims exercise). -/
def b64decode : List Char → Option Bytes
  | [] => some []
  | c0 :: c1 :: c2 :: c3 :: rest =>
      match b64idx c0, b64idx c1 with
      | some x, some y =>
        if c2 = '=' then
          if c3 = '=' ∧ rest = [] ∧ y % 16 = 0 then some [x * 4 + y / 16] else none
        else
          match b64idx c2 with
          | some z =>
            if c3 = '=' then
              if rest = [] ∧ z % 4 = 0 then some [x * 4 + y / 16, y % 16 * 16 + z / 4] else none
            else
              match b64idx c3, b64decode rest with
              | some w, some bs =>
                  some ((x * 4 + y / 16) :: (y % 16 * 16 + z / 4) :: (z % 4 * 64 + w) :: bs)
              | _, _ => none
          | none => none
      | _, _ => none
  | _ => none

/-- Splits a character list at a separator character, mirroring
JavaScript String.split with a single-character separator. -/
def splitOnChar (sep : Char) : List Char → List (List Char)
  | [] => [[]]
  | c :: cs =>
      if c = sep then [] :: splitOnChar sep cs
      else
        match splitOnChar sep cs with
        | [] => [[c]]
        | p :: ps => (c :: p) :: ps

def splitColon (l : List Char) : List (List Char) := splitOnChar ':' l

/-! ### Abstract authenticated cipher (AES-256-GCM contract) -/

/-- Contract of Node's AES-256-GCM primitive, abstracted: `enc`/`dec` are the
keystream application for a given key and nonce, `tagOf` the authentication
tag computed over the ciphertext.  Laws: decryption inverts encryption,
ciphertext length equals plaintext length (GCM is a stream cipher),
tags are 16 bytes, and all outputs are bytes. -/
structure AEAD where
  enc : Bytes → Bytes → Bytes → Bytes
  dec : Bytes → Bytes → Bytes → Bytes
  tagOf : Bytes → Bytes → Bytes → Bytes
  dec_enc : ∀ k iv p, bytesOk p = true → dec k iv (enc k iv p) = p
  enc_length : ∀ k iv p, (enc k iv p).length = p.length
  enc_ok : ∀ k iv p, bytesOk (enc k iv p) = true
  tag_length : ∀ k iv c, (tagOf k iv c).length = 16
  tag_ok : ∀ k iv c, bytesOk (tagOf k iv c) = true

/-- A concrete cipher satisfying the `AEAD` contract, used to evaluate the
development on explicit inputs. -/
def shiftAEAD : AEAD where
  enc := fun _ _ p => p.map (fun x => (x + 1) % 256)
  dec := fun _ _ c => c.map (fun x => (x + 255) % 256)
  tagOf := fun k iv c => (List.range 16).map (fun i => (k.sum + iv.sum + c.sum + i) % 256)
  dec_enc := by
    intro _ _ p
    show bytesOk p = true → (p.map (fun x => (x + 1) % 256)).map (fun x => (x + 255) % 256) = p
    induction p with
    | nil => intro _; rfl
    | cons a t ih =>
      intro hp
      simp only [bytesOk, List.all_cons, Bool.and_eq_true, decide_eq_true_eq] at hp
      simp only [List.map_cons]
      rw [ih hp.2]
      have ha : a < 256 := hp.1
      congr 1
      omega
  enc_length := by intro _ _ p; simp
  enc_ok := by
    intro _ _ p
    simp only [bytesOk, List.all_map, List.all_eq_true, Function.comp]
    intro x _
    simp only [decide_eq_true_eq]
    omega
  tag_length := by intro k iv c; simp
  tag_ok := by
    intro k iv c
    simp only [bytesOk, List.all_map, List.all_eq_true, Function.comp]
    intro x _
    simp only [decide_eq_true_eq]
    omega

/-! ### Secret store (src/utils/secrets.ts) -/

/-- Models key.padEnd(32, '0') followed by Buffer.from: pad to 32 bytes with
the byte for the character 0 (48). -/
def padKey (k : Bytes) : Bytes := k ++ List.replicate (32 - k.length) 48

/-- encryptSecret(value, key): AES-256-GCM under the padded key with a fresh
12-byte random nonce iv, producing the string ivB64:ctB64:tagB64.
createCipheriv rejects keys that are not exactly 32 bytes; that error is
caught and rethrown as an encryption failure. -/
def encryptSecret (A : AEAD) (key iv value : Bytes) : Except String (List Char) :=
  if (padKey key).length ≠ 32 then .error "Encryption failed: Invalid key length"
  else
    .ok (b64encode iv ++ ':' :: b64encode (A.enc (padKey key) iv value) ++
          ':' :: b64encode (A.tagOf (padKey key) iv (A.enc (padKey key) iv value)))

/-- decryptSecret(ciphertext, key): splits on colons, takes the first three
parts (JavaScript array destructuring ignores any further parts), rejects
empty parts, then decrypts and verifies the authentication tag; every
failure is rethrown with a Decryption failed message.  Parts that are not
well-formed base64 are outside the modelled domain and mapped to an error,
matching the fact that Node also fails on them (bad tag or bad tag length). -/
def decryptSecret (A : AEAD) (key : Bytes) (ciphertext : List Char) : Except String Bytes :=
  let parts := splitColon ciphertext
  let ivS := parts.getD 0 []
  let encS := parts.getD 1 []
  let tagS := parts.getD 2 []
  if ivS.isEmpty || encS.isEmpty || tagS.isEmpty then
    .error "Decryption failed: Invalid ciphertext format"
  else if (padKey key).length ≠ 32 then .error "Decryption failed: Invalid key length"
  else
    match b64decode ivS, b64decode encS, b64decode tagS with
    | some iv, some ct, some tag =>
        if tag = A.tagOf (padKey key) iv ct then .ok (A.dec (padKey key) iv ct)
        else .error "Decryption failed: Unsupported state or unable to authenticate data"
    | _, _, _ => .error "Decryption failed: malformed base64 part"

/-- First-match association lookup, modelling property access on the object
produced by JSON.parse. -/
def assocFind {α : Type} (k : String) : List (String × α) → Option α
  | [] => none
  | (k', v) :: rest => if k' = k then some v else assocFind k rest

/-- Property assignment obj[k] = v on a JSON.parse object: replaces the value
in place when the key exists, otherwise appends the new key. -/
def upsert {α : Type} (m : List (String × α)) (k : String) (v : α) : List (String × α) :=
  match m with
  | [] => [(k, v)]
  | (k', v') :: rest => if k' = k then (k, v) :: rest else (k', v') :: upsert rest k v

deriving instance DecidableEq for Except

/-- On-disk state of data/secrets.json.enc as seen by one read. -/
inductive SecretsDisk where
  | missing
  | unreadable
  | stored (m : List (String × List Char))

/-- The mapping storeSecret starts from: the parsed file when it exists and
parses, and the empty mapping otherwise (the catch-all swallows the error). -/
def secretsBase : SecretsDisk → List (String × List Char)
  | .stored m => m
  | _ => []

/-- storeSecret(secretKey, value, encryptionKey): read-modify-write of the
whole mapping; an encryption error propagates before anything is written. -/
def storeSecret (A : AEAD) (d : SecretsDisk) (sk : String) (value key iv : Bytes) :
    Except String (List (String × List Char)) :=
  match encryptSecret A key iv value with
  | .ok ct => .ok (upsert (secretsBase d) sk ct)
  | .error e => .error e

/-- retrieveSecret(secretKey, encryptionKey): returns none when the file is
unavailable, the key is absent or falsy (empty ciphertext string), or
decryption fails; otherwise the decrypted plaintext. -/
def retrieveSecret (A : AEAD) (d : SecretsDisk) (sk : String) (key : Bytes) : Option Bytes :=
  match d with
  | .stored m =>
      match assocFind sk m with
      | none => none
      | some ct =>
          if ct.isEmpty then none
          else
            match decryptSecret A key ct with
            | .ok p => some p
            | .error _ => none
  | _ => none

/-! ### Config document and schema (src/config/database-schema.ts, src/utils/parameters.ts) -/

structure NamedEntry where
  id : String
  name : String
  order : Int
deriving DecidableEq, Repr

structure CodeSettings where
  timeoutSeconds : Int
  numberOfAttempts : Int
deriving DecidableEq, Repr

structure Parameters where
  defaultCodeSettings : CodeSettings
  defaultWalletAddresses : List NamedEntry
  defaultRpcUrls : List NamedEntry
deriving DecidableEq, Repr

def isHexDigit (c : Char) : Bool :=
  ('0' ≤ c ∧ c ≤ '9') ∨ ('a' ≤ c ∧ c ≤ 'f') ∨ ('A' ≤ c ∧ c ≤ 'F')

/-- z.string().uuid(): hyphen-separated groups of 8-4-4-4-12 hex digits. -/
def isUuid (s : String) : Bool :=
  let parts := splitOnChar '-' s.toList
  parts.map List.length == [8, 4, 4, 4, 12] && parts.all (·.all isHexDigit)

/-- The per-entry schema: id a well-formed uuid, name any string
(z.string().min(0)), order > 0 (z.number().positive()). -/
def entryValid (e : NamedEntry) : Bool := isUuid e.id && decide (0 < e.order)

/-- ParametersSchema as a validity check on an already-typed document, as
exercised by writeParameters: timeoutSeconds >= 1, numberOfAttempts >= 1 and
every entry of both collections well-formed. -/
def schemaValid (p : Parameters) : Bool :=
  decide (1 ≤ p.defaultCodeSettings.timeoutSeconds) &&
  decide (1 ≤ p.defaultCodeSettings.numberOfAttempts) &&
  p.defaultWalletAddresses.all entryValid &&
  p.defaultRpcUrls.all entryValid

/-- JSON values, as produced by JSON.parse on the config file. -/
inductive JsonVal where
  | null
  | bool (b : Bool)
  | num (n : Int)
  | str (s : String)
  | arr (elems : List JsonVal)
  | obj (fields : List (String × JsonVal))

/-- ParametersSchema.parse on one array element. -/
def parseEntry (j : JsonVal) : Option NamedEntry :=
  match j with
  | .obj fs =>
      match assocFind "id" fs, assocFind "name" fs, assocFind "order" fs with
      | some (.str i), some (.str n), some (.num o) =>
          if isUuid i && decide (0 < o) then some ⟨i, n, o⟩ else none
      | _, _, _ => none
  | _ => none

def parseEntries : List JsonVal → Option (List NamedEntry)
  | [] => some []
  | j :: js =>
      match parseEntry j, parseEntries js with
      | some e, some es => some (e :: es)
      | _, _ => none

/-- ParametersSchema.parse on an untyped JSON document (unknown keys are
stripped; any type or constraint violation fails the parse). -/
def parseParameters (j : JsonVal) : Option Parameters :=
  match j with
  | .obj fs =>
      match assocFind "defaultCodeSettings" fs, assocFind "defaultWalletAddresses" fs,
            assocFind "defaultRpcUrls" fs with
      | some (.obj cs), some (.arr ws), some (.arr rs) =>
          match assocFind "timeoutSeconds" cs, assocFind "numberOfAttempts" cs with
          | some (.num t), some (.num a) =>
              if 1 ≤ t ∧ 1 ≤ a then
                match parseEntries ws, parseEntries rs with
                | some we, some re => some ⟨⟨t, a⟩, we, re⟩
                | _, _ => none
              else none
          | _, _ => none
      | _, _, _ => none
  | _ => none

/-- initParameters(): the default document; uuidv4() for the seeded wallet is
modelled by the supplied fresh identifier. -/
def initParameters (freshId : String) : Parameters :=
  { defaultCodeSettings := { timeoutSeconds := 20, numberOfAttempts := 3 }
    defaultWalletAddresses := [{ id := freshId, name := "phantom1", order := 1 }]
    defaultRpcUrls := [] }

/-- On-disk state of data/parameters.json as seen by one read. -/
inductive DiskParams where
  | missing
  | ioError
  | content (j : JsonVal)

def paramsOnDisk : DiskParams → Option Parameters
  | .content j => parseParameters j
  | _ => none

/-- readParameters(): the try block reads, JSON-parses and schema-validates;
the catch-all logs and falls back to initParameters(), so the function is
total (never throws to its caller). -/
def readParameters (d : DiskParams) (freshId : String) : Parameters :=
  match paramsOnDisk d with
  | some p => p
  | none => initParameters freshId

/-- writeParameters(params): validates first; on success the validated
document replaces the disk content, on failure the error is logged and
rethrown and the disk is untouched. -/
def writeParameters (p : Parameters) (disk : Option Parameters) :
    Except String Unit × Option Parameters :=
  if schemaValid p then (.ok (), some p) else (.error "ValidationError", disk)

/-! ### RPC health probe (src/utils/solana/pingRpc.ts) -/

/-- Outcome of the race between the fetch-then-json promise and the 3-second
timer: the timer fired first, the network request failed, the body was not
JSON, or a response arrived with an HTTP status and a parsed JSON body. -/
inductive FetchOutcome where
  | timeout
  | networkError
  | jsonError
  | success (status : Nat) (body : JsonVal)

/-- data.result === 'ok'.  Property access on null throws a TypeError, which
the surrounding catch turns into false, the same value the strict comparison
yields on every non-object body. -/
def jsResultOk (body : JsonVal) : Bool :=
  match body with
  | .obj fs =>
      match assocFind "result" fs with
      | some (.str s) => s == "ok"
      | _ => false
  | _ => false

/-- pingRpcUrl(url): any rejection (timer, network, JSON parse) is caught and
collapsed to false; a parsed response is reduced to data.result === 'ok'.
The HTTP status code of the response is never inspected. -/
def pingRpcUrl (o : FetchOutcome) : Bool :=
  match o with
  | .success _ body => jsResultOk body
  | _ => false

/-! ### Menu engine (src/data-acquisition/user-parameters/menu.ts) -/

/-- Comparison by the order field, the relation sorted by the comparator
(a, b) => a.order - b.order. -/
def entryLE (a b : NamedEntry) : Prop := a.order ≤ b.order

instance : DecidableRel entryLE := fun a b => inferInstanceAs (Decidable (a.order ≤ b.order))

instance : IsTotal NamedEntry entryLE := ⟨fun a b => Int.le_total a.order b.order⟩

instance : IsTrans NamedEntry entryLE := ⟨fun _ _ _ hab hbc => le_trans hab hbc⟩

/-- Stable sort by the order field, modelling Array.sort with the comparator
(a, b) => a.order - b.order (stable per the ECMAScript specification; a
stable sort by a fixed key is unique, so any stable implementation agrees
with stable insertion sort). -/
def sortByOrder (l : List NamedEntry) : List NamedEntry := List.insertionSort entryLE l

/-- The renumbering pass over sortedOthers on Save: a mutable counter
newOrder starts at 1; an entry whose order ties the edited entry's order
receives ++newOrder (pre-increment), every other entry receives newOrder++
(post-increment). -/
def renumberOthers (editedOrder n : Int) : List NamedEntry → List NamedEntry
  | [] => []
  | w :: ws =>
      if w.order = editedOrder
      then { w with order := n + 1 } :: renumberOthers editedOrder (n + 1) ws
      else { w with order := n } :: renumberOthers editedOrder (n + 1) ws

/-- Final map((w, index) => ({...w, order: index + 1})). -/
def reindexFrom (i : Int) : List NamedEntry → List NamedEntry
  | [] => []
  | w :: ws => { w with order := i } :: reindexFrom (i + 1) ws

/-- The Save and Back handler for a wallets or RPC collection: the edited
entry keeps its declared order, the remaining entries are sorted and
renumbered, the whole collection is re-sorted by order and reindexed to
1, 2, 3, ... -/
def saveCollection (edited : NamedEntry) (coll : List NamedEntry) : List NamedEntry :=
  let others := coll.filter (fun w => w.id ≠ edited.id)
  let renumbered := renumberOthers edited.order 1 (sortByOrder others)
  reindexFrom 1 (sortByOrder (edited :: renumbered))

/-- In-memory session state: the staged document, the persisted document and
the on-disk secrets mapping (secret writes are not staged). -/
structure SessionState where
  params : Parameters
  diskParams : Option Parameters
  secrets : List (String × List Char)
deriving DecidableEq, Repr

def walletNames (p : Parameters) : List String :=
  p.defaultWalletAddresses.map (fun w => w.name)

def rpcNames (p : Parameters) : List String :=
  p.defaultRpcUrls.map (fun r => r.name)

/-- Add New Wallet: the name prompt validates input && !existingNames.includes(input)
against the wallet collection only (exact, case-sensitive String equality);
an invalid candidate never leaves the prompt, so no entry is created for it.
An accepted flow pushes {id, name, order} and immediately stores the secret. -/
def addWallet (A : AEAD) (key : Bytes) (st : SessionState) (name : String)
    (address iv : Bytes) (order : Int) (newId : String) : Option SessionState :=
  if name = "" ∨ (walletNames st.params).contains name then none
  else
    some
      { st with
        params :=
          { st.params with
            defaultWalletAddresses :=
              st.params.defaultWalletAddresses ++ [{ id := newId, name := name, order := order }] }
        secrets :=
          match storeSecret A (.stored st.secrets) ("solanaWalletAddress_" ++ newId) address key iv with
          | .ok m => m
          | .error _ => st.secrets }

/-- Confirmed Delete Wallet: filters the entry out of the staged document and
persists via writeParameters; nothing touches the secrets file. -/
def deleteWallet (st : SessionState) (wid : String) : SessionState :=
  let newParams :=
    { st.params with
      defaultWalletAddresses := st.params.defaultWalletAddresses.filter (fun w => w.id ≠ wid) }
  { params := newParams
    diskParams := (writeParameters newParams st.diskParams).2
    secrets := st.secrets }

/-- One interaction inside the Edit Wallet sub-menu.  A prompt the operator
leaves empty returns null and the loop continues. -/
inductive EditAction where
  | giveName (v : String)
  | giveOrder (v : Int)
  | giveAddress (v : Bytes) (iv : Bytes)
  | promptCancelled

/-- find(w => w.id === wid) followed by in-place mutation of the found entry. -/
def updateFirstEntry (wid : String) (f : NamedEntry → NamedEntry) :
    List NamedEntry → List NamedEntry
  | [] => []
  | w :: ws => if w.id = wid then f w :: ws else w :: updateFirstEntry wid f ws

/-- Field edits mutate the staged entry directly; a secret edit calls
storeSecret immediately (write-through to the secrets file). -/
def applyWalletEdit (A : AEAD) (key : Bytes) (wid : String) (st : SessionState)
    (a : EditAction) : SessionState :=
  match a with
  | .giveName v =>
      let existing := (st.params.defaultWalletAddresses.filter (fun w => w.id ≠ wid)).map
        (fun w => w.name)
      if v ≠ "" ∧ ¬ existing.contains v then
        { st with
          params :=
            { st.params with
              defaultWalletAddresses :=
                updateFirstEntry wid (fun w => { w with name := v })
                  st.params.defaultWalletAddresses } }
      else st
  | .giveOrder v =>
      if 0 < v then
        { st with
          params :=
            { st.params with
              defaultWalletAddresses :=
                updateFirstEntry wid (fun w => { w with order := v })
                  st.params.defaultWalletAddresses } }
      else st
  | .giveAddress v iv =>
      match storeSecret A (.stored st.secrets) ("solanaWalletAddress_" ++ wid) v key iv with
      | .ok m => { st with secrets := m }
      | .error _ => st
  | .promptCancelled => st

/-- An Edit Wallet sub-session that the operator ends with Cancel: the listed
interactions run, then Cancel merely breaks out of the loop (menu.ts line
209); no snapshot of name or order is restored. -/
def cancelWalletEditSession (A : AEAD) (key : Bytes) (wid : String) (st : SessionState)
    (edits : List EditAction) : SessionState :=
  edits.foldl (applyWalletEdit A key wid) st

/-! ### Derived views and sample values -/

def ordersOf (l : List NamedEntry) : List Int := l.map (fun w => w.order)

def idsOf (l : List NamedEntry) : List String := l.map (fun w => w.id)

/-- The list a, a+1, ..., a+len-1 of integers. -/
def intRange (a : Int) : Nat → List Int
  | 0 => []
  | n + 1 => a :: intRange (a + 1) n

/-- The renumbering pass of `renumberOthers` on the order values alone. -/
def intRenumber (editedOrder n : Int) : List Int → List Int
  | [] => []
  | x :: xs =>
      (if x = editedOrder then n + 1 else n) :: intRenumber editedOrder (n + 1) xs

/-- UTF-8 bytes of the sample key "password". -/
def secKey0 : Bytes := [112, 97, 115, 115, 119, 111, 114, 100]

/-- A sample 12-byte nonce. -/
def secIv0 : Bytes := [0, 1, 2, 3, 4, 5, 6, 7, 8, 9, 10, 11]

/-- Ciphertext of the sample plaintext [5, 6, 7] under the sample key. -/
def sampleCt : List Char := (encryptSecret shiftAEAD secKey0 secIv0 [5, 6, 7]).toOption.getD []

/-- A session holding one wallet whose secret is stored on disk. -/
def sampleSession : SessionState :=
  { params :=
      { defaultCodeSettings := { timeoutSeconds := 20, numberOfAttempts := 3 }
        defaultWalletAddresses := [{ id := "w1", name := "phantom1", order := 1 }]
        defaultRpcUrls := [] }
    diskParams := none
    secrets := [("solanaWalletAddress_w1", sampleCt)] }

/-- A document violating the schema (timeoutSeconds = 0). -/
def badDoc0 : Parameters :=
  { defaultCodeSettings := { timeoutSeconds := 0, numberOfAttempts := 3 }
    defaultWalletAddresses := []
    defaultRpcUrls := [] }

/-- A document satisfying the schema. -/
def goodDoc0 : Parameters :=
  { defaultCodeSettings := { timeoutSeconds := 20, numberOfAttempts := 3 }
    defaultWalletAddresses := [{ id := "123e4567-e89b-42d3-a456-426614174000", name := "phantom1", order := 1 }]
    defaultRpcUrls := [] }

/-! ### Base64 and splitting lemmas -/

theorem b64idx_b64chr : ∀ n, n < 64 → b64idx (b64chr n) = some n := by decide

theorem b64chr_ne_colon : ∀ n, n < 64 → b64chr n ≠ ':' := by decide

theorem b64chr_ne_pad : ∀ n, n < 64 → b64chr n ≠ '=' := by decide

theorem bytesOk_cons {a : Nat} {t : Bytes} :
    bytesOk (a :: t) = true ↔ a < 256 ∧ bytesOk t = true := by
  simp [bytesOk]

theorem b64decode_encode : ∀ b : Bytes, bytesOk b = true → b64decode (b64encode b) = some b
  | [], _ => rfl
  | [a], h => by
    have ha : a < 256 := (bytesOk_cons.mp h).1
    have h1 := b64idx_b64chr (a / 4) (by omega)
    have h2 := b64idx_b64chr (a % 4 * 16) (by omega)
    have h3 : a % 4 * 16 % 16 = 0 := by omega
    simp [b64encode, b64decode, h1, h2, h3]
    omega
  | [a, b], h => by
    have ha : a < 256 := (bytesOk_cons.mp h).1
    have hb : b < 256 := (bytesOk_cons.mp (bytesOk_cons.mp h).2).1
    have h1 := b64idx_b64chr (a / 4) (by omega)
    have h2 := b64idx_b64chr (a % 4 * 16 + b / 16) (by omega)
    have h3 := b64idx_b64chr (b % 16 * 4) (by omega)
    have hne3 := b64chr_ne_pad (b % 16 * 4) (by omega)
    have e3 : b % 16 * 4 % 4 = 0 := by omega
    simp [b64encode, b64decode, h1, h2, h3, hne3, e3]
    omega
  | a :: b :: c :: rest, h => by
    have ha : a < 256 := (bytesOk_cons.mp h).1
    have hb : b < 256 := (bytesOk_cons.mp (bytesOk_cons.mp h).2).1
    have hc : c < 256 :=
      (bytesOk_cons.mp (bytesOk_cons.mp (bytesOk_cons.mp h).2).2).1
    have hrest : bytesOk rest = true :=
      (bytesOk_cons.mp (bytesOk_cons.mp (bytesOk_cons.mp h).2).2).2
    have ih := b64decode_encode rest hrest
    have h1 := b64idx_b64chr (a / 4) (by omega)
    have h2 := b64idx_b64chr (a % 4 * 16 + b / 16) (by omega)
    have h3 := b64idx_b64chr (b % 16 * 4 + c / 64) (by omega)
    have h4 := b64idx_b64chr (c % 64) (by omega)
    have hne3 := b64chr_ne_pad (b % 16 * 4 + c / 64) (by omega)
    have hne4 := b64chr_ne_pad (c % 64) (by omega)
    simp [b64encode, b64decode, h1, h2, h3, h4, hne3, hne4, ih]
    omega

theorem b64encode_no_colon : ∀ b : Bytes, bytesOk b = true → ':' ∉ b64encode b
  | [], _ => by simp [b64encode]
  | [a], h => by
    have ha : a < 256 := (bytesOk_cons.mp h).1
    have h1 := b64chr_ne_colon (a / 4) (by omega)
    have h2 := b64chr_ne_colon (a % 4 * 16) (by omega)
    simp only [b64encode, List.mem_cons, List.not_mem_nil, or_false, not_or]
    exact ⟨fun e => h1 e.symm, fun e => h2 e.symm, by decide, by decide⟩
  | [a, b], h => by
    have ha : a < 256 := (bytesOk_cons.mp h).1
    have hb : b < 256 := (bytesOk_cons.mp (bytesOk_cons.mp h).2).1
    have h1 := b64chr_ne_colon (a / 4) (by omega)
    have h2 := b64chr_ne_colon (a % 4 * 16 + b / 16) (by omega)
    have h3 := b64chr_ne_colon (b % 16 * 4) (by omega)
    simp only [b64encode, List.mem_cons, List.not_mem_nil, or_false, not_or]
    exact ⟨fun e => h1 e.symm, fun e => h2 e.symm, fun e => h3 e.symm, by decide⟩
  | a :: b :: c :: rest, h => by
    have ha : a < 256 := (bytesOk_cons.mp h).1
    have hb : b < 256 := (bytesOk_cons.mp (bytesOk_cons.mp h).2).1
    have hc : c < 256 :=
      (bytesOk_cons.mp (bytesOk_cons.mp (bytesOk_cons.mp h).2).2).1
    have hrest : bytesOk rest = true :=
      (bytesOk_cons.mp (bytesOk_cons.mp (bytesOk_cons.mp h).2).2).2
    have ih := b64encode_no_colon rest hrest
    have h1 := b64chr_ne_colon (a / 4) (by omega)
    have h2 := b64chr_ne_colon (a % 4 * 16 + b / 16) (by omega)
    have h3 := b64chr_ne_colon (b % 16 * 4 + c / 64) (by omega)
    have h4 := b64chr_ne_colon (c % 64) (by omega)
    simp only [b64encode, List.mem_cons, not_or]
    exact ⟨fun e => h1 e.symm, fun e => h2 e.symm, fun e => h3 e.symm, fun e => h4 e.symm, ih⟩

theorem b64encode_ne_nil : ∀ b : Bytes, b ≠ [] → b64encode b ≠ []
  | [], h => absurd rfl h
  | [_], _ => by simp [b64encode]
  | [_, _], _ => by simp [b64encode]
  | _ :: _ :: _ :: _, _ => by simp [b64encode]

theorem splitOnChar_of_not_mem {sep : Char} : ∀ l : List Char, sep ∉ l →
    splitOnChar sep l = [l]
  | [], _ => rfl
  | c :: cs, h => by
    have hc : c ≠ sep := fun e => h (e ▸ List.mem_cons_self c cs)
    have ih := splitOnChar_of_not_mem cs (fun m => h (List.mem_cons_of_mem c m))
    simp [splitOnChar, hc, ih]

theorem splitOnChar_append {sep : Char} : ∀ (a rest : List Char), sep ∉ a →
    splitOnChar sep (a ++ sep :: rest) = a :: splitOnChar sep rest
  | [], rest, _ => by simp [splitOnChar]
  | c :: a, rest, h => by
    have hc : c ≠ sep := fun e => h (e ▸ List.mem_cons_self c a)
    have ih := splitOnChar_append a rest (fun m => h (List.mem_cons_of_mem c m))
    simp only [List.cons_append, splitOnChar, if_neg hc, List.append_eq, ih]

theorem splitColon_three {ivS ctS tagS : List Char}
    (h1 : ':' ∉ ivS) (h2 : ':' ∉ ctS) (h3 : ':' ∉ tagS) :
    splitColon (ivS ++ ':' :: (ctS ++ ':' :: tagS)) = [ivS, ctS, tagS] := by
  unfold splitColon
  rw [splitOnChar_append ivS _ h1, splitOnChar_append ctS _ h2, splitOnChar_of_not_mem tagS h3]

/-! ### C4: encrypt/decrypt round trip -/

theorem padKey_length {k : Bytes} (h : k.length ≤ 32) : (padKey k).length = 32 := by
  simp only [padKey, List.length_append, List.length_replicate]
  omega

theorem isEmpty_false_of_ne_nil {α : Type} {l : List α} (h : l ≠ []) : l.isEmpty = false := by
  cases l with
  | nil => exact absurd rfl h
  | cons a t => rfl

theorem decryptSecret_parts (A : AEAD) (key : Bytes) (ivS ctS tagS : List Char)
    (h1 : ':' ∉ ivS) (h2 : ':' ∉ ctS) (h3 : ':' ∉ tagS) :
    decryptSecret A key (ivS ++ ':' :: (ctS ++ ':' :: tagS)) =
      (if ivS.isEmpty || ctS.isEmpty || tagS.isEmpty then
        .error "Decryption failed: Invalid ciphertext format"
      else if (padKey key).length ≠ 32 then .error "Decryption failed: Invalid key length"
      else
        match b64decode ivS, b64decode ctS, b64decode tagS with
        | some iv, some ct, some tag =>
            if tag = A.tagOf (padKey key) iv ct then .ok (A.dec (padKey key) iv ct)
            else .error "Decryption failed: Unsupported state or unable to authenticate data"
        | _, _, _ => .error "Decryption failed: malformed base64 part") := by
  rw [decryptSecret, splitColon_three h1 h2 h3]
  rfl

/-- C4 (amended): for every non-empty plaintext, every key that
createCipheriv accepts (at most 32 bytes once padded) and every nonce the
encryption draws, decrypting the result of encrypting yields the plaintext
back.  The claim as frozen also asserts this for the empty plaintext, which
fails (see the counterexample): the empty string encrypts to an empty middle
part that decryptSecret rejects as malformed. -/
theorem c4_roundtrip (A : AEAD) (key iv p : Bytes)
    (hklen : key.length ≤ 32) (hp : p ≠ []) (hpok : bytesOk p = true)
    (hivlen : iv.length = 12) (hivok : bytesOk iv = true) :
    ∃ c, encryptSecret A key iv p = .ok c ∧ decryptSecret A key c = .ok p := by
  have hk32 : (padKey key).length = 32 := padKey_length hklen
  have hct : bytesOk (A.enc (padKey key) iv p) = true := A.enc_ok _ _ _
  have htag : bytesOk (A.tagOf (padKey key) iv (A.enc (padKey key) iv p)) = true := A.tag_ok _ _ _
  have hivne : b64encode iv ≠ [] := by
    apply b64encode_ne_nil
    intro e
    rw [e] at hivlen
    simp at hivlen
  have hctne : b64encode (A.enc (padKey key) iv p) ≠ [] := by
    apply b64encode_ne_nil
    intro e
    have hl := A.enc_length (padKey key) iv p
    rw [e] at hl
    exact hp (List.length_eq_zero.mp hl.symm)
  have htagne : b64encode (A.tagOf (padKey key) iv (A.enc (padKey key) iv p)) ≠ [] := by
    apply b64encode_ne_nil
    intro e
    have hl := A.tag_length (padKey key) iv (A.enc (padKey key) iv p)
    rw [e] at hl
    simp at hl
  refine ⟨b64encode iv ++ ':' ::
      (b64encode (A.enc (padKey key) iv p) ++ ':' ::
        b64encode (A.tagOf (padKey key) iv (A.enc (padKey key) iv p))), ?_, ?_⟩
  · rw [encryptSecret, hk32]
    rw [if_neg (fun h => h rfl)]
    simp only [List.append_assoc, List.cons_append]
  · rw [decryptSecret_parts A key _ _ _ (b64encode_no_colon iv hivok)
      (b64encode_no_colon _ hct) (b64encode_no_colon _ htag)]
    rw [isEmpty_false_of_ne_nil hivne, isEmpty_false_of_ne_nil hctne,
      isEmpty_false_of_ne_nil htagne]
    simp only [Bool.or_self, Bool.or_false, Bool.false_or]
    rw [if_neg (fun h => Bool.noConfusion h)]
    rw [hk32]
    rw [if_neg (fun h => h rfl)]
    rw [b64decode_encode iv hivok, b64decode_encode _ hct, b64decode_encode _ htag]
    show (if A.tagOf (padKey key) iv (A.enc (padKey key) iv p) =
          A.tagOf (padKey key) iv (A.enc (padKey key) iv p)
        then Except.ok (A.dec (padKey key) iv (A.enc (padKey key) iv p))
        else Except.error "Decryption failed: Unsupported state or unable to authenticate data")
        = Except.ok p
    rw [if_pos rfl, A.dec_enc _ _ _ hpok]

/-- C4 counterexample: with the empty plaintext the encryption succeeds but
decryption of its own output fails, because the ciphertext part between the
colons is empty and the format check rejects it; so the round-trip law does
not hold for every string. -/
theorem c4_counterexample :
    (encryptSecret shiftAEAD secKey0 secIv0 []).isOk = true ∧
    decryptSecret shiftAEAD secKey0 ((encryptSecret shiftAEAD secKey0 secIv0 []).toOption.getD [])
      = .error "Decryption failed: Invalid ciphertext format" := by
  constructor
  · decide
  · decide

/-- C4 witness: the round trip evaluated on the sample cipher, key, nonce and
plaintext [5, 6, 7]. -/
theorem c4_witness :
    ∃ c, encryptSecret shiftAEAD secKey0 secIv0 [5, 6, 7] = .ok c ∧
      decryptSecret shiftAEAD secKey0 c = .ok [5, 6, 7] :=
  c4_roundtrip shiftAEAD secKey0 secIv0 [5, 6, 7] (by decide) (by decide) (by decide)
    (by decide) (by decide)

/-! ### C5: decryption failure behaviour -/

/-- C5 (amended): decryptSecret never silently returns garbage, in this
sense: (a) whenever it succeeds, the first three colon-separated parts
decode to a nonce, a ciphertext and a tag such that the tag authenticates
the ciphertext and the result is exactly that ciphertext's decryption;
(b) altering the authentication tag of a well-formed ciphertext makes
decryption fail; (c) genuine encryptSecret outputs consist of exactly three
colon-separated parts.  The claim as frozen additionally asserts failure on
every input that is not a faithful encryptSecret output, which is false:
appending extra colon-separated junk to a valid ciphertext is accepted
(see the counterexample), because array destructuring ignores the extra
parts. -/
theorem c5_decrypt_auth (A : AEAD) (key : Bytes) :
    (∀ cs p, decryptSecret A key cs = .ok p →
      ∃ iv ct tag,
        b64decode ((splitColon cs).getD 0 []) = some iv ∧
        b64decode ((splitColon cs).getD 1 []) = some ct ∧
        b64decode ((splitColon cs).getD 2 []) = some tag ∧
        tag = A.tagOf (padKey key) iv ct ∧
        p = A.dec (padKey key) iv ct) ∧
    (∀ iv p t, bytesOk iv = true → iv ≠ [] → bytesOk p = true → p ≠ [] →
      bytesOk t = true → t ≠ [] →
      t ≠ A.tagOf (padKey key) iv (A.enc (padKey key) iv p) →
      ∃ msg, decryptSecret A key
          (b64encode iv ++ ':' :: (b64encode (A.enc (padKey key) iv p) ++ ':' :: b64encode t))
        = .error msg) ∧
    (∀ iv p c, bytesOk iv = true → encryptSecret A key iv p = .ok c →
      (splitColon c).length = 3) := by
  refine ⟨?_, ?_, ?_⟩
  · intro cs p h
    simp only [decryptSecret] at h
    by_cases hb : ((((splitColon cs).getD 0 []).isEmpty || ((splitColon cs).getD 1 []).isEmpty)
        || ((splitColon cs).getD 2 []).isEmpty) = true
    · rw [if_pos hb] at h
      exact absurd h (by simp)
    · rw [if_neg hb] at h
      by_cases hk : (padKey key).length ≠ 32
      · rw [if_pos hk] at h
        exact absurd h (by simp)
      · rw [if_neg hk] at h
        rcases h0 : b64decode ((splitColon cs).getD 0 []) with _ | iv
        · rw [h0] at h
          exact absurd h (by simp)
        rcases h1 : b64decode ((splitColon cs).getD 1 []) with _ | ct
        · rw [h0, h1] at h
          exact absurd h (by simp)
        rcases h2 : b64decode ((splitColon cs).getD 2 []) with _ | tag
        · rw [h0, h1, h2] at h
          exact absurd h (by simp)
        rw [h0, h1, h2] at h
        replace h : (if tag = A.tagOf (padKey key) iv ct
            then Except.ok (A.dec (padKey key) iv ct)
            else (Except.error "Decryption failed: Unsupported state or unable to authenticate data" : Except String Bytes))
            = Except.ok p := h
        by_cases ht : tag = A.tagOf (padKey key) iv ct
        · rw [if_pos ht] at h
          refine ⟨iv, ct, tag, rfl, rfl, rfl, ht, ?_⟩
          injection h with h
          exact h.symm
        · rw [if_neg ht] at h
          exact absurd h (by simp)
  · intro iv p t hiv hivne hpok hpne htok htne hne
    have hct : bytesOk (A.enc (padKey key) iv p) = true := A.enc_ok _ _ _
    have hivSne : b64encode iv ≠ [] := b64encode_ne_nil _ hivne
    have hctSne : b64encode (A.enc (padKey key) iv p) ≠ [] := by
      apply b64encode_ne_nil
      intro e
      have hl := A.enc_length (padKey key) iv p
      rw [e] at hl
      exact hpne (List.length_eq_zero.mp hl.symm)
    have htSne : b64encode t ≠ [] := b64encode_ne_nil _ htne
    rw [decryptSecret_parts A key _ _ _ (b64encode_no_colon iv hiv)
      (b64encode_no_colon _ hct) (b64encode_no_colon _ htok)]
    rw [isEmpty_false_of_ne_nil hivSne, isEmpty_false_of_ne_nil hctSne,
      isEmpty_false_of_ne_nil htSne]
    simp only [Bool.or_self, Bool.or_false, Bool.false_or]
    rw [if_neg (fun h => Bool.noConfusion h)]
    by_cases hk : (padKey key).length ≠ 32
    · exact ⟨"Decryption failed: Invalid key length", by rw [if_pos hk]⟩
    · refine ⟨"Decryption failed: Unsupported state or unable to authenticate data", ?_⟩
      rw [if_neg hk]
      rw [b64decode_encode iv hiv, b64decode_encode _ hct, b64decode_encode _ htok]
      show (if t = A.tagOf (padKey key) iv (A.enc (padKey key) iv p)
          then Except.ok (A.dec (padKey key) iv (A.enc (padKey key) iv p))
          else (Except.error "Decryption failed: Unsupported state or unable to authenticate data" : Except String Bytes))
          = _
      rw [if_neg hne]
  · intro iv p c hiv h
    by_cases hk : (padKey key).length ≠ 32
    · rw [encryptSecret, if_pos hk] at h
      exact absurd h (by simp)
    · rw [encryptSecret, if_neg hk] at h
      injection h with hc
      rw [← hc]
      have hassoc : (b64encode iv ++ ':' :: b64encode (A.enc (padKey key) iv p) ++
            ':' :: b64encode (A.tagOf (padKey key) iv (A.enc (padKey key) iv p)))
          = b64encode iv ++ ':' :: (b64encode (A.enc (padKey key) iv p) ++
            ':' :: b64encode (A.tagOf (padKey key) iv (A.enc (padKey key) iv p))) := by
        simp only [List.append_assoc, List.cons_append]
      rw [hassoc, splitColon_three (b64encode_no_colon iv hiv)
        (b64encode_no_colon _ (A.enc_ok _ _ _)) (b64encode_no_colon _ (A.tag_ok _ _ _))]
      rfl

/-- C5 counterexample: appending an extra colon-separated part to a valid
ciphertext yields an input that no encryptSecret call produces (genuine
outputs have exactly three colon-separated parts, this one has four), yet
decryptSecret accepts it and returns the embedded plaintext instead of
failing with a decryption error. -/
theorem c5_counterexample :
    decryptSecret shiftAEAD secKey0 (sampleCt ++ ':' :: ['j', 'u', 'n', 'k']) = .ok [5, 6, 7] ∧
    (splitColon (sampleCt ++ ':' :: ['j', 'u', 'n', 'k'])).length = 4 := by
  constructor
  · decide
  · decide

/-- C5 witness: a tampered tag (16 zero bytes) on the sample ciphertext makes
decryption fail. -/
theorem c5_witness :
    ∃ msg, decryptSecret shiftAEAD secKey0
        (b64encode secIv0 ++ ':' :: (b64encode (shiftAEAD.enc (padKey secKey0) secIv0 [5, 6, 7]) ++
          ':' :: b64encode (List.replicate 16 0)))
      = .error msg :=
  (c5_decrypt_auth shiftAEAD secKey0).2.1 secIv0 [5, 6, 7] (List.replicate 16 0)
    (by decide) (by decide) (by decide) (by decide) (by decide) (by decide) (by decide)

/-! ### C10: storeSecret read-modify-write -/

theorem assocFind_upsert_self {α : Type} (m : List (String × α)) (k : String) (v : α) :
    assocFind k (upsert m k v) = some v := by
  induction m with
  | nil => simp [upsert, assocFind]
  | cons a rest ih =>
    rcases a with ⟨k2, v2⟩
    by_cases hk : k2 = k
    · simp [upsert, hk, assocFind]
    · simp [upsert, hk, assocFind, ih]

theorem assocFind_upsert_ne {α : Type} (m : List (String × α)) (k k2 : String) (v : α)
    (h : k2 ≠ k) : assocFind k2 (upsert m k v) = assocFind k2 m := by
  have h2 : ¬ k = k2 := fun e => h e.symm
  induction m with
  | nil => simp [upsert, assocFind, h2]
  | cons a rest ih =>
    rcases a with ⟨k3, v3⟩
    by_cases hk : k3 = k
    · subst hk
      simp [upsert, assocFind, h2]
    · simp [upsert, hk, assocFind, ih]

/-- C10: storeSecret replaces the whole on-disk mapping with the base
mapping extended at the stored key, where the base mapping is the parsed
previous file content when it exists and parses as a JSON object, and the
empty mapping otherwise (so in that case every other previously stored
secret is silently dropped by the rewrite). -/
theorem c10_store (A : AEAD) (d : SecretsDisk) (sk : String) (v key iv : Bytes)
    (hklen : key.length ≤ 32) :
    ∃ ct, encryptSecret A key iv v = .ok ct ∧
      storeSecret A d sk v key iv = .ok (upsert (secretsBase d) sk ct) ∧
      assocFind sk (upsert (secretsBase d) sk ct) = some ct ∧
      (∀ k2, k2 ≠ sk → assocFind k2 (upsert (secretsBase d) sk ct) = assocFind k2 (secretsBase d)) ∧
      (∀ m, d = .stored m → secretsBase d = m) ∧
      (d = .missing ∨ d = .unreadable → secretsBase d = []) := by
  have hk32 : (padKey key).length = 32 := padKey_length hklen
  have henc : encryptSecret A key iv v = .ok (b64encode iv ++ ':' ::
      b64encode (A.enc (padKey key) iv v) ++ ':' ::
      b64encode (A.tagOf (padKey key) iv (A.enc (padKey key) iv v))) := by
    rw [encryptSecret, hk32]
    rw [if_neg (fun h => h rfl)]
  refine ⟨_, henc, ?_, assocFind_upsert_self _ _ _,
    fun k2 h => assocFind_upsert_ne _ _ _ _ h, ?_, ?_⟩
  · rw [storeSecret, henc]
  · intro m hm
    rw [hm]
    exact rfl
  · intro hm
    rcases hm with hm | hm <;> rw [hm] <;> rfl

/-- C10 witness: storing under an existing mapping on the sample state. -/
theorem c10_witness :
    ∃ ct, encryptSecret shiftAEAD secKey0 secIv0 [9, 9] = .ok ct ∧
      storeSecret shiftAEAD (.stored [("other", ['x'])]) "k1" [9, 9] secKey0 secIv0 =
        .ok (upsert (secretsBase (.stored [("other", ['x'])])) "k1" ct) ∧
      assocFind "k1" (upsert (secretsBase (.stored [("other", ['x'])])) "k1" ct) = some ct ∧
      (∀ k2, k2 ≠ "k1" →
        assocFind k2 (upsert (secretsBase (.stored [("other", ['x'])])) "k1" ct) =
          assocFind k2 (secretsBase (.stored [("other", ['x'])]))) ∧
      (∀ m, SecretsDisk.stored [("other", ['x'])] = .stored m →
        secretsBase (.stored [("other", ['x'])]) = m) ∧
      (SecretsDisk.stored [("other", ['x'])] = .missing ∨
          SecretsDisk.stored [("other", ['x'])] = .unreadable →
        secretsBase (.stored [("other", ['x'])]) = []) :=
  c10_store shiftAEAD (.stored [("other", ['x'])]) "k1" [9, 9] secKey0 secIv0 (by decide)

/-! ### C3: deletion and the secret store -/

/-- C3 (amended): confirmed deletion removes the entry's record from the
staged ConfigDocument (and persists it when the document validates), but the
Secret Store is not touched: the secrets mapping is unchanged, so retrieving
the deleted entry's secret afterwards behaves exactly as before the
deletion rather than returning absent. -/
theorem c3_delete (st : SessionState) (wid : String) :
    (deleteWallet st wid).params.defaultWalletAddresses
        = st.params.defaultWalletAddresses.filter (fun w => w.id ≠ wid) ∧
    (deleteWallet st wid).secrets = st.secrets ∧
    (∀ A sk key, retrieveSecret A (.stored (deleteWallet st wid).secrets) sk key
        = retrieveSecret A (.stored st.secrets) sk key) :=
  ⟨rfl, rfl, fun _ _ _ => rfl⟩

/-- C3 counterexample: on the sample session the wallet record is gone after
deletion, yet its stored secret is still retrievable (the claim demands that
retrieval return absent). -/
theorem c3_counterexample :
    ((deleteWallet sampleSession "w1").params.defaultWalletAddresses.all
        (fun w => w.id ≠ "w1")) = true ∧
    retrieveSecret shiftAEAD (.stored (deleteWallet sampleSession "w1").secrets)
        "solanaWalletAddress_w1" secKey0 = some [5, 6, 7] := by
  constructor
  · decide
  · decide

/-! ### C6: readParameters fallback -/

theorem parseEntry_valid {j : JsonVal} {e : NamedEntry} (h : parseEntry j = some e) :
    entryValid e = true := by
  unfold parseEntry at h
  split at h
  · split at h
    · split at h
      · rename_i hcond
        injection h with he
        subst he
        simpa [entryValid] using hcond
      · exact absurd h (by simp)
    · exact absurd h (by simp)
  · exact absurd h (by simp)

theorem parseEntries_valid : ∀ {js : List JsonVal} {es : List NamedEntry},
    parseEntries js = some es → es.all entryValid = true
  | [], es, h => by
    injection h with he
    subst he
    rfl
  | j :: js, es, h => by
    unfold parseEntries at h
    split at h
    · rename_i e2 es2 he hes
      injection h with he2
      subst he2
      simp only [List.all_cons, Bool.and_eq_true]
      exact ⟨parseEntry_valid he, parseEntries_valid hes⟩
    · exact absurd h (by simp)

theorem parseParameters_valid {j : JsonVal} {p : Parameters}
    (h : parseParameters j = some p) : schemaValid p = true := by
  unfold parseParameters at h
  split at h
  · split at h
    · split at h
      · split at h
        · split at h
          · rename_i ha2 hta o1 o2 we re hwe hre
            injection h with hp
            subst hp
            simp only [schemaValid, Bool.and_eq_true, decide_eq_true_eq]
            exact ⟨⟨⟨hta.1, hta.2⟩, parseEntries_valid hwe⟩, parseEntries_valid hre⟩
          · exact absurd h (by simp)
        · exact absurd h (by simp)
      · exact absurd h (by simp)
    · exact absurd h (by simp)
  · exact absurd h (by simp)

/-- C6: readParameters is total by construction (the catch-all block
returns instead of rethrowing): on every failing disk state (missing file,
unreadable file, content that does not parse or fails schema validation,
all the states with paramsOnDisk none) it returns the fresh default document
of initParameters; in the missing-file case the result equals the
initParameters value outright; and any successfully read document satisfies
the schema. -/
theorem c6_read (d : DiskParams) (u : String) :
    (paramsOnDisk d = none → readParameters d u = initParameters u) ∧
    readParameters .missing u = initParameters u ∧
    (∀ p, paramsOnDisk d = some p → readParameters d u = p ∧ schemaValid p = true) := by
  refine ⟨?_, rfl, ?_⟩
  · intro h
    rw [readParameters, h]
  · intro p h
    constructor
    · rw [readParameters, h]
    · rcases d with _ | _ | j
      · exact absurd h (by simp [paramsOnDisk])
      · exact absurd h (by simp [paramsOnDisk])
      · exact parseParameters_valid h

/-- C6 witness: missing file and non-object content both fall back to the
default document. -/
theorem c6_witness :
    readParameters .missing "fresh-id" = initParameters "fresh-id" ∧
    readParameters (.content (.num 5)) "fresh-id" = initParameters "fresh-id" :=
  ⟨(c6_read .missing "fresh-id").2.1, (c6_read (.content (.num 5)) "fresh-id").1 rfl⟩

/-! ### C7: writeParameters validation -/

/-- C7: writeParameters validates the document against the schema before any
write: a violated structural invariant (timeoutSeconds below 1, attempts
below 1, an entry order not strictly positive, or a malformed id) makes it
fail with the validation error propagated and the disk unchanged, while a
document satisfying the schema is written. -/
theorem c7_write (p : Parameters) (disk : Option Parameters) :
    ((p.defaultCodeSettings.timeoutSeconds < 1 ∨ p.defaultCodeSettings.numberOfAttempts < 1 ∨
        (∃ e ∈ p.defaultWalletAddresses ++ p.defaultRpcUrls,
          e.order ≤ 0 ∨ isUuid e.id = false)) →
      writeParameters p disk = (.error "ValidationError", disk)) ∧
    (schemaValid p = true → writeParameters p disk = (.ok (), some p)) := by
  constructor
  · intro hbad
    rw [writeParameters, if_neg ?hv]
    case hv =>
      intro hgood
      simp only [schemaValid, Bool.and_eq_true, decide_eq_true_eq, List.all_eq_true] at hgood
      obtain ⟨⟨⟨ht, ha⟩, hw⟩, hr⟩ := hgood
      rcases hbad with hb | hb | ⟨e, he, hb⟩
      · omega
      · omega
      · have hev : entryValid e = true := by
          rcases List.mem_append.mp he with hm | hm
          · exact hw e hm
          · exact hr e hm
        simp only [entryValid, Bool.and_eq_true, decide_eq_true_eq] at hev
        rcases hb with hb | hb
        · omega
        · rw [hev.1] at hb
          exact Bool.noConfusion hb
  · intro hgood
    rw [writeParameters, if_pos hgood]

/-- C7 witness: a document with timeoutSeconds 0 is rejected with the disk
untouched, and a well-formed document is written. -/
theorem c7_witness :
    writeParameters badDoc0 none = (.error "ValidationError", none) ∧
    writeParameters goodDoc0 none = (.ok (), some goodDoc0) :=
  ⟨(c7_write badDoc0 none).1 (Or.inl (by decide)), (c7_write goodDoc0 none).2 (by decide)⟩

/-! ### C8: RPC health probe -/

/-- C8 (amended): pingRpcUrl is total (every rejection is caught), returns
false on timeout, network error and malformed response, and returns true
exactly when a response arrives in time whose JSON body is an object with
result equal to the string ok — regardless of the HTTP status code.  The
claim as frozen additionally demands false on a non-success HTTP status,
which the code never inspects (see the counterexample). -/
theorem c8_probe (o : FetchOutcome) :
    pingRpcUrl .timeout = false ∧ pingRpcUrl .networkError = false ∧
    pingRpcUrl .jsonError = false ∧
    (pingRpcUrl o = true ↔ ∃ st body, o = .success st body ∧ jsResultOk body = true) := by
  refine ⟨rfl, rfl, rfl, ?_⟩
  constructor
  · intro h
    rcases o with _ | _ | _ | ⟨st, body⟩
    · exact absurd h (by simp [pingRpcUrl])
    · exact absurd h (by simp [pingRpcUrl])
    · exact absurd h (by simp [pingRpcUrl])
    · exact ⟨st, body, rfl, h⟩
  · rintro ⟨st, body, rfl, hb⟩
    exact hb

/-- C8 counterexample: a response with HTTP status 500 whose JSON body is
the object with result ok makes the probe return true, while the claim
demands false on every non-success status. -/
theorem c8_counterexample :
    pingRpcUrl (.success 500 (.obj [("result", .str "ok")])) = true := by decide

/-- C8 witness: the characterization applied to a concrete healthy
response. -/
theorem c8_witness : pingRpcUrl (.success 200 (.obj [("result", .str "ok")])) = true :=
  (c8_probe (.success 200 (.obj [("result", .str "ok")]))).2.2.2.mpr
    ⟨200, .obj [("result", .str "ok")], rfl, by decide⟩

/-! ### C9: add-entry name validation -/

/-- C9: the Add New Wallet name prompt rejects an empty candidate or one
equal (case-sensitive String equality) to an existing wallet name before any
entry is created; a candidate passing it produces exactly one appended
wallet entry and leaves the RPC collection (whose names are never consulted
for a wallet add, as the conclusion holds for every session state whatever
names its RPC collection holds) and the settings untouched. -/
theorem c9_add_name (A : AEAD) (key : Bytes) (st : SessionState) (name : String)
    (address iv : Bytes) (order : Int) (newId : String) :
    ((name = "" ∨ name ∈ walletNames st.params) →
      addWallet A key st name address iv order newId = none) ∧
    ((name ≠ "" ∧ name ∉ walletNames st.params) →
      ∃ st2, addWallet A key st name address iv order newId = some st2 ∧
        st2.params.defaultWalletAddresses =
          st.params.defaultWalletAddresses ++ [{ id := newId, name := name, order := order }] ∧
        st2.params.defaultRpcUrls = st.params.defaultRpcUrls ∧
        st2.params.defaultCodeSettings = st.params.defaultCodeSettings) := by
  constructor
  · intro hbad
    rw [addWallet, if_pos ?hc]
    case hc =>
      rcases hbad with h | h
      · exact Or.inl h
      · exact Or.inr (List.elem_iff.mpr h)
  · intro hgood
    rw [addWallet, if_neg ?hc]
    case hc =>
      rintro (h | h)
      · exact hgood.1 h
      · exact hgood.2 (List.elem_iff.mp h)
    exact ⟨_, rfl, rfl, rfl, rfl⟩

/-- C9 witness: a duplicate name is rejected, and the same candidate
succeeds in a session whose RPC collection already uses it. -/
theorem c9_witness :
    addWallet shiftAEAD secKey0 sampleSession "phantom1" [5, 6, 7] secIv0 1 "w9" = none ∧
    ∃ st2, addWallet shiftAEAD secKey0
        { sampleSession with
          params := { sampleSession.params with
            defaultRpcUrls := [{ id := "r1", name := "fresh", order := 1 }] } }
        "fresh" [5, 6, 7] secIv0 1 "w9" = some st2 ∧
      st2.params.defaultWalletAddresses =
        sampleSession.params.defaultWalletAddresses ++ [{ id := "w9", name := "fresh", order := 1 }] ∧
      st2.params.defaultRpcUrls = [{ id := "r1", name := "fresh", order := 1 }] ∧
      st2.params.defaultCodeSettings = sampleSession.params.defaultCodeSettings :=
  ⟨(c9_add_name shiftAEAD secKey0 sampleSession "phantom1" [5, 6, 7] secIv0 1 "w9").1
      (Or.inr (by decide)),
    (c9_add_name shiftAEAD secKey0 _ "fresh" [5, 6, 7] secIv0 1 "w9").2 (by decide)⟩

/-! ### C2: Cancel in the edit sub-menu -/

/-- C2 evaluated at the failing input: starting from the sample session
(one wallet named phantom1), editing the name to renamed and then choosing
Cancel leaves the staged document changed — the wallet keeps the new name
instead of reverting to the snapshot — while the secrets file is untouched.
The wallet and RPC edit loops break out of the loop on Cancel without any
restore, although the file headers of menu.ts and menuHandler.ts document
Cancel as discarding the changes, and the snapshots they take
(originalWallets, originalAddress, originalUrl) are never used. -/
theorem c2_cancel_keeps_edits :
    (cancelWalletEditSession shiftAEAD secKey0 "w1" sampleSession
        [.giveName "renamed"]).params ≠ sampleSession.params ∧
    ((cancelWalletEditSession shiftAEAD secKey0 "w1" sampleSession
        [.giveName "renamed"]).params.defaultWalletAddresses.map (fun w => w.name))
      = ["renamed"] ∧
    (cancelWalletEditSession shiftAEAD secKey0 "w1" sampleSession
        [.giveName "renamed"]).secrets = sampleSession.secrets := by
  refine ⟨by decide, by decide, by decide⟩

/-! ### C1: reindexing on Save -/

theorem intRange_length (a : Int) : ∀ n : Nat, (intRange a n).length = n := by
  intro n
  induction n generalizing a with
  | zero => rfl
  | succ m ih => simp [intRange, ih]

theorem mem_intRange {x a : Int} : ∀ {n : Nat}, x ∈ intRange a n → a ≤ x ∧ x < a + n := by
  intro n
  induction n generalizing a with
  | zero => intro h; exact absurd h (by simp [intRange])
  | succ m ih =>
    intro h
    rcases List.mem_cons.mp h with he | hm
    · subst he
      constructor
      · exact le_refl x
      · have : (0 : Int) < (m : Int) + 1 := by omega
        omega
    · have := ih hm
      push_cast
      push_cast at this
      omega

theorem intRange_append (a : Int) (m n : Nat) :
    intRange a (m + n) = intRange a m ++ intRange (a + m) n := by
  induction m generalizing a with
  | zero => simp [intRange]
  | succ p ih =>
    have : p + 1 + n = (p + n) + 1 := by omega
    rw [this]
    simp only [intRange, List.cons_append]
    rw [ih (a + 1)]
    have : a + 1 + (p : Int) = a + ((p : Int) + 1) := by omega
    rw [this]
    push_cast
    rfl

theorem sorted_intRange (a : Int) : ∀ n : Nat, (intRange a n).Sorted (· ≤ ·) := by
  intro n
  induction n generalizing a with
  | zero => exact List.sorted_nil
  | succ m ih =>
    rw [intRange, List.sorted_cons]
    constructor
    · intro b hb
      have := mem_intRange hb
      omega
    · exact ih (a + 1)

theorem countP_intRange_lt (b : Int) : ∀ (a : Int) (n : Nat),
    (intRange a n).countP (fun x => decide (x < b)) = min n (b - a).toNat := by
  intro a n
  induction n generalizing a with
  | zero => simp [intRange]
  | succ m ih =>
    rw [intRange, List.countP_cons, ih (a + 1)]
    by_cases hab : a < b
    · rw [if_pos (by simpa using hab)]
      omega
    · rw [if_neg (by simpa using hab)]
      omega

theorem intRenumber_length (O : Int) : ∀ (n : Int) (L : List Int),
    (intRenumber O n L).length = L.length := by
  intro n L
  induction L generalizing n with
  | nil => rfl
  | cons x xs ih => simp [intRenumber, ih]

theorem intRenumber_append (O : Int) : ∀ (xs ys : List Int) (n : Int),
    intRenumber O n (xs ++ ys) = intRenumber O n xs ++ intRenumber O (n + xs.length) ys := by
  intro xs ys
  induction xs with
  | nil => simp [intRenumber]
  | cons x t ih =>
    intro n
    simp only [List.cons_append, intRenumber, List.length_cons]
    rw [show t.append ys = t ++ ys from rfl, ih (n + 1)]
    have hcast : n + 1 + (t.length : Int) = n + ((t.length + 1 : Nat) : Int) := by
      push_cast
      omega
    rw [hcast]

theorem intRenumber_not_mem (O : Int) : ∀ (L : List Int) (n : Int), (∀ x ∈ L, x ≠ O) →
    intRenumber O n L = intRange n L.length := by
  intro L
  induction L with
  | nil => intro n _; rfl
  | cons x t ih =>
    intro n h
    have hx : x ≠ O := h x (List.mem_cons_self x t)
    rw [intRenumber, if_neg hx, List.length_cons, intRange,
      ih (n + 1) (fun y hy => h y (List.mem_cons_of_mem x hy))]

theorem intRenumber_cons_tie (O n : Int) (t : List Int) :
    intRenumber O n (O :: t) = (n + 1) :: intRenumber O (n + 1) t := by
  rw [intRenumber, if_pos rfl]

theorem intRenumber_ge (O : Int) : ∀ (L : List Int) (n : Int) (x : Int),
    x ∈ intRenumber O n L → n ≤ x := by
  intro L
  induction L with
  | nil => intro n x h; exact absurd h (by simp [intRenumber])
  | cons y t ih =>
    intro n x h
    rw [intRenumber] at h
    split at h
    · rcases List.mem_cons.mp h with he | hm
      · omega
      · have := ih (n + 1) x hm
        omega
    · rcases List.mem_cons.mp h with he | hm
      · omega
      · have := ih (n + 1) x hm
        omega

theorem sorted_intRenumber (O : Int) : ∀ (L : List Int) (n : Int),
    (intRenumber O n L).Sorted (· ≤ ·) := by
  intro L
  induction L with
  | nil => intro n; exact List.sorted_nil
  | cons x t ih =>
    intro n
    rw [intRenumber]
    split
    · rw [List.sorted_cons]
      exact ⟨fun b hb => le_trans (by omega) (intRenumber_ge O t (n + 1) b hb), ih (n + 1)⟩
    · rw [List.sorted_cons]
      exact ⟨fun b hb => le_trans (by omega) (intRenumber_ge O t (n + 1) b hb), ih (n + 1)⟩

theorem ordersOf_renumber (O : Int) : ∀ (l : List NamedEntry) (n : Int),
    ordersOf (renumberOthers O n l) = intRenumber O n (ordersOf l) := by
  intro l
  induction l with
  | nil => intro n; rfl
  | cons w t ih =>
    intro n
    have iht := ih (n + 1)
    simp only [ordersOf] at iht ⊢
    by_cases hw : w.order = O
    · simp [renumberOthers, hw, intRenumber, iht]
    · simp [renumberOthers, hw, intRenumber, iht]

theorem idsOf_renumber (O : Int) : ∀ (l : List NamedEntry) (n : Int),
    idsOf (renumberOthers O n l) = idsOf l := by
  intro l
  induction l with
  | nil => intro n; rfl
  | cons w t ih =>
    intro n
    have iht := ih (n + 1)
    simp only [idsOf] at iht ⊢
    by_cases hw : w.order = O
    · simp [renumberOthers, hw, iht]
    · simp [renumberOthers, hw, iht]

theorem ordersOf_reindex : ∀ (l : List NamedEntry) (i : Int),
    ordersOf (reindexFrom i l) = intRange i l.length := by
  intro l
  induction l with
  | nil => intro i; rfl
  | cons w t ih =>
    intro i
    have iht := ih (i + 1)
    simp only [ordersOf] at iht ⊢
    simp [reindexFrom, intRange, iht]

theorem idsOf_reindex : ∀ (l : List NamedEntry) (i : Int),
    idsOf (reindexFrom i l) = idsOf l := by
  intro l
  induction l with
  | nil => intro i; rfl
  | cons w t ih =>
    intro i
    have iht := ih (i + 1)
    simp only [idsOf] at iht ⊢
    simp [reindexFrom, iht]

theorem sorted_entryLE_iff : ∀ (l : List NamedEntry),
    l.Sorted entryLE ↔ (ordersOf l).Sorted (· ≤ ·) := by
  intro l
  induction l with
  | nil => simp [ordersOf]
  | cons a t ih =>
    rw [List.sorted_cons]
    rw [show ordersOf (a :: t) = a.order :: ordersOf t from rfl, List.sorted_cons]
    constructor
    · rintro ⟨h1, h2⟩
      refine ⟨?_, ih.mp h2⟩
      intro b hb
      rcases List.mem_map.mp hb with ⟨w, hw, he⟩
      subst he
      exact h1 w hw
    · rintro ⟨h1, h2⟩
      refine ⟨?_, ih.mpr h2⟩
      intro w hw
      exact h1 w.order (List.mem_map_of_mem _ hw)

theorem length_takeWhile_countP (e : NamedEntry) : ∀ (l : List NamedEntry),
    l.Sorted entryLE →
    (l.takeWhile fun b => ¬ entryLE e b).length = l.countP fun b => ¬ entryLE e b := by
  intro l
  induction l with
  | nil => intro _; rfl
  | cons a t ih =>
    intro hs
    rw [List.sorted_cons] at hs
    have iht := ih hs.2
    simp only [decide_not] at iht ⊢
    rw [List.takeWhile_cons, List.countP_cons]
    by_cases hpa : entryLE e a
    · rw [if_neg (by simp [hpa]), if_neg (by simp [hpa])]
      have hz : (t.countP fun b => !decide (entryLE e b)) = 0 := by
        apply List.countP_eq_zero.mpr
        intro b hb
        have hle : entryLE e b := le_trans hpa (hs.1 b hb)
        simp [hle]
      rw [hz]
      rfl
    · rw [if_pos (by simp [hpa]), if_pos (by simp [hpa])]
      rw [List.length_cons, iht]

theorem findIdx_middle (p : NamedEntry → Bool) : ∀ (l1 : List NamedEntry) (x : NamedEntry)
    (l2 : List NamedEntry), (∀ w ∈ l1, p w = false) → p x = true →
    List.findIdx p (l1 ++ x :: l2) = l1.length := by
  intro l1
  induction l1 with
  | nil =>
    intro x l2 _ hx
    simp [List.findIdx_cons, hx]
  | cons a t ih =>
    intro x l2 h hx
    have ha : p a = false := h a (List.mem_cons_self a t)
    simp [List.findIdx_cons, ha, ih x l2 (fun w hw => h w (List.mem_cons_of_mem a hw)) hx]

theorem findIdx_reindexFrom (s : String) : ∀ (l : List NamedEntry) (i : Int),
    (reindexFrom i l).findIdx (fun w => w.id == s) = l.findIdx (fun w => w.id == s) := by
  intro l
  induction l with
  | nil => intro i; rfl
  | cons a t ih =>
    intro i
    simp only [reindexFrom, List.findIdx_cons]
    rw [ih (i + 1)]

theorem intRange_succ (a : Int) (n : Nat) : intRange a (n + 1) = a :: intRange (a + 1) n := rfl

theorem countP_intRenumber_ranges (O k N : Nat) (hO1 : 1 ≤ O) (hk1 : 1 ≤ k) (hkN : k ≤ N) :
    (intRenumber (O : Int) 1 (intRange 1 (k - 1) ++ intRange ((k : Int) + 1) (N - k))).countP
        (fun x => decide (x < (O : Int)))
      = (if O ≤ k then O else min (O - 1) N) - 1 := by
  by_cases hOk : O ≤ k
  · by_cases hOk2 : O = k
    · subst hOk2
      have hnt : ∀ x ∈ intRange (1 : Int) (O - 1) ++ intRange ((O : Int) + 1) (N - O),
          x ≠ (O : Int) := by
        intro x hx he
        rcases List.mem_append.mp hx with hm | hm
        · have := mem_intRange hm
          omega
        · have := mem_intRange hm
          omega
      rw [intRenumber_not_mem _ _ _ hnt, countP_intRange_lt]
      rw [List.length_append, intRange_length, intRange_length]
      rw [if_pos le_rfl]
      omega
    · have hOk3 : O < k := lt_of_le_of_ne hOk hOk2
      have hsplit : intRange (1 : Int) (k - 1)
          = intRange 1 (O - 1) ++ ((O : Int) :: intRange ((O : Int) + 1) (k - O - 1)) := by
        rw [show k - 1 = (O - 1) + ((k - O - 1) + 1) from by omega, intRange_append]
        rw [show (1 : Int) + ((O - 1 : Nat) : Int) = (O : Int) from by omega]
        rw [intRange_succ]
      rw [hsplit, List.append_assoc, List.cons_append]
      rw [intRenumber_append]
      rw [intRange_length]
      rw [show (1 : Int) + ((O - 1 : Nat) : Int) = (O : Int) from by omega]
      rw [intRenumber_cons_tie]
      have hA1 : intRenumber (O : Int) 1 (intRange 1 (O - 1)) = intRange 1 (O - 1) := by
        rw [intRenumber_not_mem]
        · rw [intRange_length]
        · intro x hx he
          have := mem_intRange hx
          omega
      have hrest : intRenumber (O : Int) ((O : Int) + 1)
          (intRange ((O : Int) + 1) (k - O - 1) ++ intRange ((k : Int) + 1) (N - k))
          = intRange ((O : Int) + 1) ((k - O - 1) + (N - k)) := by
        rw [intRenumber_not_mem]
        · rw [List.length_append, intRange_length, intRange_length]
        · intro x hx he
          rcases List.mem_append.mp hx with hm | hm
          · have := mem_intRange hm
            omega
          · have := mem_intRange hm
            omega
      rw [hA1, hrest]
      rw [List.countP_append, List.countP_cons]
      rw [countP_intRange_lt, countP_intRange_lt]
      rw [if_neg (by simp only [decide_eq_true_eq]; omega)]
      rw [if_pos hOk]
      omega
  · have hOk3 : k < O := Nat.lt_of_not_le hOk
    by_cases hON : O ≤ N
    · have hsplitC : intRange ((k : Int) + 1) (N - k)
          = intRange ((k : Int) + 1) (O - k - 1) ++
            ((O : Int) :: intRange ((O : Int) + 1) (N - O)) := by
        rw [show N - k = (O - k - 1) + ((N - O) + 1) from by omega, intRange_append]
        rw [show (k : Int) + 1 + ((O - k - 1 : Nat) : Int) = (O : Int) from by omega]
        rw [intRange_succ]
      rw [hsplitC]
      rw [intRenumber_append]
      rw [intRange_length]
      rw [show (1 : Int) + ((k - 1 : Nat) : Int) = (k : Int) from by omega]
      rw [intRenumber_append]
      rw [intRange_length]
      rw [show (k : Int) + ((O - k - 1 : Nat) : Int) = (O : Int) - 1 from by omega]
      rw [intRenumber_cons_tie]
      rw [show ((O : Int) - 1) + 1 = (O : Int) from by omega]
      have hA1 : intRenumber (O : Int) 1 (intRange 1 (k - 1)) = intRange 1 (k - 1) := by
        rw [intRenumber_not_mem]
        · rw [intRange_length]
        · intro x hx he
          have := mem_intRange hx
          omega
      have hC1 : intRenumber (O : Int) (k : Int) (intRange ((k : Int) + 1) (O - k - 1))
          = intRange (k : Int) (O - k - 1) := by
        rw [intRenumber_not_mem]
        · rw [intRange_length]
        · intro x hx he
          have := mem_intRange hx
          omega
      have hC2 : intRenumber (O : Int) (O : Int) (intRange ((O : Int) + 1) (N - O))
          = intRange (O : Int) (N - O) := by
        rw [intRenumber_not_mem]
        · rw [intRange_length]
        · intro x hx he
          have := mem_intRange hx
          omega
      rw [hA1, hC1, hC2]
      rw [List.countP_append, List.countP_append, List.countP_cons]
      rw [countP_intRange_lt, countP_intRange_lt, countP_intRange_lt]
      rw [if_neg (by simp only [decide_eq_true_eq]; omega)]
      rw [if_neg hOk]
      omega
    · have hON2 : N < O := Nat.lt_of_not_le hON
      have hnt : ∀ x ∈ intRange (1 : Int) (k - 1) ++ intRange ((k : Int) + 1) (N - k),
          x ≠ (O : Int) := by
        intro x hx he
        rcases List.mem_append.mp hx with hm | hm
        · have := mem_intRange hm
          omega
        · have := mem_intRange hm
          omega
      rw [intRenumber_not_mem _ _ _ hnt, countP_intRange_lt]
      rw [List.length_append, intRange_length, intRange_length]
      rw [if_neg hOk]
      omega

/-- C1 (amended): for a collection whose order values are contiguous 1..N
before the edit (the entries other than the edited one carry exactly the
orders 1..N except the edited entry's old order k) and an edited entry
requesting order O >= 1, a successful Save and Back always normalizes the
order values to exactly 1..N with no gaps or duplicates; the edited entry
ends at rank O when O <= k, but at rank min(O-1, N) when O exceeds its own
pre-edit order — one rank higher than the requested order, contrary to the
frozen claim (see the counterexample).  The default-document scenario does
hold: adding a second wallet with order 1 and saving it yields the new
wallet at rank 1 and the original at rank 2 (final conjunct). -/
theorem c1_save_reindex (e : NamedEntry) (coll : List NamedEntry) (N k O : Nat)
    (hk1 : 1 ≤ k) (hkN : k ≤ N) (hO1 : 1 ≤ O)
    (hOrd : e.order = (O : Int))
    (hperm : (ordersOf (coll.filter (fun w => w.id ≠ e.id))).Perm
        (intRange 1 (k - 1) ++ intRange ((k : Int) + 1) (N - k))) :
    (ordersOf (saveCollection e coll) = intRange 1 N ∧
      (saveCollection e coll).findIdx (fun w => w.id == e.id)
        = (if O ≤ k then O else min (O - 1) N) - 1) ∧
    saveCollection ⟨"id2", "new", 1⟩ [⟨"id1", "phantom1", 1⟩, ⟨"id2", "new", 1⟩]
      = [⟨"id2", "new", 1⟩, ⟨"id1", "phantom1", 2⟩] := by
  refine ⟨?_, by decide⟩
  have hperm_so : (ordersOf (sortByOrder (coll.filter (fun w => w.id ≠ e.id)))).Perm
      (intRange (1 : Int) (k - 1) ++ intRange ((k : Int) + 1) (N - k)) :=
    List.Perm.trans ((List.perm_insertionSort entryLE _).map _) hperm
  have hsorted_so : (ordersOf (sortByOrder (coll.filter (fun w => w.id ≠ e.id)))).Sorted
      (· ≤ ·) :=
    (sorted_entryLE_iff _).mp (List.sorted_insertionSort entryLE _)
  have hsortedL : (intRange (1 : Int) (k - 1) ++
      intRange ((k : Int) + 1) (N - k)).Sorted (· ≤ ·) := by
    apply List.pairwise_append.mpr
    refine ⟨sorted_intRange _ _, sorted_intRange _ _, ?_⟩
    intro a ha b hb
    have h1 := mem_intRange ha
    have h2 := mem_intRange hb
    omega
  have hL : ordersOf (sortByOrder (coll.filter (fun w => w.id ≠ e.id)))
      = intRange (1 : Int) (k - 1) ++ intRange ((k : Int) + 1) (N - k) :=
    List.eq_of_perm_of_sorted hperm_so hsorted_so hsortedL
  have hords_renum : ordersOf (renumberOthers e.order 1
        (sortByOrder (coll.filter (fun w => w.id ≠ e.id))))
      = intRenumber (O : Int) 1
          (intRange (1 : Int) (k - 1) ++ intRange ((k : Int) + 1) (N - k)) := by
    rw [ordersOf_renumber, hL, hOrd]
  have hlen_renum : (renumberOthers e.order 1
        (sortByOrder (coll.filter (fun w => w.id ≠ e.id)))).length
      = (k - 1) + (N - k) := by
    have hc := congrArg List.length hords_renum
    simp only [ordersOf, List.length_map, intRenumber_length, List.length_append,
      intRange_length] at hc
    exact hc
  have hsorted_renum : (renumberOthers e.order 1
        (sortByOrder (coll.filter (fun w => w.id ≠ e.id)))).Sorted entryLE := by
    apply (sorted_entryLE_iff _).mpr
    rw [hords_renum]
    exact sorted_intRenumber _ _ _
  have hsave : saveCollection e coll = reindexFrom 1
      ((renumberOthers e.order 1
          (sortByOrder (coll.filter (fun w => w.id ≠ e.id)))).takeWhile
          (fun b => ¬ entryLE e b) ++
        e :: (renumberOthers e.order 1
          (sortByOrder (coll.filter (fun w => w.id ≠ e.id)))).dropWhile
          (fun b => ¬ entryLE e b)) := by
    show reindexFrom 1 (sortByOrder (e :: renumberOthers e.order 1
        (sortByOrder (coll.filter (fun w => w.id ≠ e.id))))) = _
    rw [show sortByOrder (e :: renumberOthers e.order 1
          (sortByOrder (coll.filter (fun w => w.id ≠ e.id))))
        = List.orderedInsert entryLE e (List.insertionSort entryLE (renumberOthers e.order 1
          (sortByOrder (coll.filter (fun w => w.id ≠ e.id))))) from rfl]
    rw [List.Sorted.insertionSort_eq hsorted_renum]
    rw [List.orderedInsert_eq_take_drop]
  constructor
  · rw [hsave, ordersOf_reindex]
    congr 1
    rw [List.length_append, List.length_cons]
    have htkdr : ((renumberOthers e.order 1
          (sortByOrder (coll.filter (fun w => w.id ≠ e.id)))).takeWhile
          (fun b => ¬ entryLE e b)).length +
        ((renumberOthers e.order 1
          (sortByOrder (coll.filter (fun w => w.id ≠ e.id)))).dropWhile
          (fun b => ¬ entryLE e b)).length
        = (renumberOthers e.order 1
            (sortByOrder (coll.filter (fun w => w.id ≠ e.id)))).length := by
      rw [← List.length_append, List.takeWhile_append_dropWhile]
    omega
  · rw [hsave, findIdx_reindexFrom]
    have hpre : ∀ w ∈ (renumberOthers e.order 1
        (sortByOrder (coll.filter (fun w => w.id ≠ e.id)))).takeWhile
        (fun b => ¬ entryLE e b), (w.id == e.id) = false := by
      intro w hw
      have hw2 : w ∈ renumberOthers e.order 1
          (sortByOrder (coll.filter (fun w => w.id ≠ e.id))) :=
        (List.takeWhile_sublist _).subset hw
      have hid : w.id ∈ idsOf (renumberOthers e.order 1
          (sortByOrder (coll.filter (fun w => w.id ≠ e.id)))) :=
        List.mem_map_of_mem _ hw2
      rw [idsOf_renumber] at hid
      have hperm_ids : (idsOf (sortByOrder (coll.filter (fun w => w.id ≠ e.id)))).Perm
          (idsOf (coll.filter (fun w => w.id ≠ e.id))) :=
        (List.perm_insertionSort entryLE _).map _
      have hid2 : w.id ∈ idsOf (coll.filter (fun w => w.id ≠ e.id)) :=
        hperm_ids.mem_iff.mp hid
      rcases List.mem_map.mp hid2 with ⟨w2, hw2m, he⟩
      have hf := List.mem_filter.mp hw2m
      have hne : w2.id ≠ e.id := by simpa using hf.2
      exact beq_eq_false_iff_ne.mpr (he ▸ hne)
    rw [findIdx_middle _ _ e _ hpre (beq_self_eq_true e.id)]
    rw [length_takeWhile_countP e _ hsorted_renum]
    have hcnt : ((renumberOthers e.order 1
          (sortByOrder (coll.filter (fun w => w.id ≠ e.id)))).countP
          fun b => ¬ entryLE e b)
        = (ordersOf (renumberOthers e.order 1
            (sortByOrder (coll.filter (fun w => w.id ≠ e.id))))).countP
            (fun x => decide (x < (O : Int))) := by
      rw [ordersOf, List.countP_map]
      apply List.countP_congr
      intro w hw
      simp only [Function.comp, entryLE, hOrd, decide_eq_true_eq, decide_not,
        Bool.not_eq_true', decide_eq_false_iff_not]
      omega
    rw [hcnt, hords_renum, countP_intRenumber_ranges O k N hO1 hk1 hkN]

/-- C1 counterexample: pre-edit the collection is contiguous 1..2 (entry a
at order 1, entry b at order 2); entry a is edited to request order 2, a tie
with b.  The claim places the edited entry at the rank of its requested
order, rank 2 (index 1); the code leaves it at rank 1 (index 0), with b
still at rank 2. -/
theorem c1_counterexample :
    (saveCollection ⟨"a", "A", 2⟩ [⟨"a", "A", 2⟩, ⟨"b", "B", 2⟩]).findIdx
        (fun w => w.id == "a") = 0 ∧
    saveCollection ⟨"a", "A", 2⟩ [⟨"a", "A", 2⟩, ⟨"b", "B", 2⟩]
      = [⟨"a", "A", 1⟩, ⟨"b", "B", 2⟩] := by
  constructor
  · decide
  · decide

/-- C1 witness: the characterization evaluated at a three-entry collection
(pre-edit orders 1..3, edited entry previously at order 2 requesting
order 1). -/
theorem c1_witness :
    (ordersOf (saveCollection ⟨"b2", "two", 1⟩
        [⟨"b2", "two", 1⟩, ⟨"a1", "one", 1⟩, ⟨"c3", "three", 3⟩]) = intRange 1 3 ∧
      (saveCollection ⟨"b2", "two", 1⟩
          [⟨"b2", "two", 1⟩, ⟨"a1", "one", 1⟩, ⟨"c3", "three", 3⟩]).findIdx
          (fun w => w.id == (⟨"b2", "two", 1⟩ : NamedEntry).id)
        = (if 1 ≤ 2 then 1 else min 0 3) - 1) ∧
    saveCollection ⟨"id2", "new", 1⟩ [⟨"id1", "phantom1", 1⟩, ⟨"id2", "new", 1⟩]
      = [⟨"id2", "new", 1⟩, ⟨"id1", "phantom1", 2⟩] :=
  c1_save_reindex ⟨"b2", "two", 1⟩
    [⟨"b2", "two", 1⟩, ⟨"a1", "one", 1⟩, ⟨"c3", "three", 3⟩] 3 2 1
    (by decide) (by decide) (by decide) (by decide) (by decide)
